import Mathlib

/-!
# Verification of the donutpluginutils download-and-log pipeline

Shallow embedding of the core of `src/app.py` (dependency expansion, batch
orchestration, transfer engine, run-log recorder) and `src/modrinth.py`
(Modrinth client), with theorems settling the specification's claims.
-/

/-! ## Data model: catalog items, dependency map -/

/-- A downloadable catalog entry, as in `plugins.json` records used by
`DownloaderApp` (`self.download_items`): a dict with `name` and `url`. -/
structure Item where
  name : String
  url : String
deriving DecidableEq, Repr

/-- The catalog (`self.download_items`): an ordered list of items. -/
abbrev Catalog := List Item

/-- The dependency map returned by `load_dependencies()` (src/app.py 71-79):
a JSON dict `name -> list of dependency names`, modelled as an association
list with unique keys, looked up with `List.lookup`. -/
abbrev DepMap := List (String × List String)

/-- Function `find_item_by_name` from src/app.py lines 996-1000: return the first
catalog item whose `name` matches, else `None`. -/
def find_item_by_name (catalog : Catalog) (name : String) : Option Item :=
  catalog.find? (fun d => d.name == name)

/-- State of the expansion loop in `DownloaderApp.start_download`
(src/app.py 1006-1020): the work queue `to_process`, the `processed` set
(a Python `set`, modelled as a duplicate-free-by-construction list), the
`extra_items` accumulator, and a ghost trace `lookups` recording every name
passed to `find_item_by_name`, in call order. -/
structure ExpState where
  queue : List String
  processed : List String
  extras : List Item
  lookups : List String
deriving Repr

/-- The inner `for dep_name in deps_map[current_name]` loop of
src/app.py lines 1014-1020: skip names already in `processed`; otherwise look
the name up in the catalog; if found, append the item to `extra_items`, add
the name to `processed` and to the queue. Note the source adds to
`processed` only in the found branch. -/
def processDeps (catalog : Catalog) (deps : List String) (s : ExpState) : ExpState :=
  match deps with
  | [] => s
  | dep :: rest =>
    if dep ∈ s.processed then
      processDeps catalog rest s
    else
      match find_item_by_name catalog dep with
      | some item =>
        processDeps catalog rest
          { queue := s.queue ++ [dep], processed := s.processed ++ [dep],
            extras := s.extras ++ [item], lookups := s.lookups ++ [dep] }
      | none =>
        processDeps catalog rest { s with lookups := s.lookups ++ [dep] }

/-- Number of catalog names not yet in `processed`; the termination measure
component for the expansion loop. -/
def unseen (catalog : Catalog) (processed : List String) : Nat :=
  ((catalog.map Item.name).toFinset.filter (fun x => x ∉ processed)).card

theorem unseen_append_mem (catalog : Catalog) (processed : List String) (dep : String)
    (hmem : dep ∈ catalog.map Item.name) (hnot : dep ∉ processed) :
    unseen catalog (processed ++ [dep]) + 1 = unseen catalog processed := by
  unfold unseen
  have h1 : ((catalog.map Item.name).toFinset.filter (fun x => x ∉ processed ++ [dep]))
      = ((catalog.map Item.name).toFinset.filter (fun x => x ∉ processed)).erase dep := by
    rw [← Finset.filter_ne']
    rw [Finset.filter_filter]
    apply Finset.filter_congr
    intro x _
    simp only [List.mem_append, List.mem_singleton]
    constructor
    · intro h
      exact ⟨fun hx => h (Or.inl hx), fun hx => h (Or.inr hx)⟩
    · intro h hx
      rcases hx with hx | hx
      · exact h.1 hx
      · exact h.2 hx
  rw [h1]
  have hdep : dep ∈ ((catalog.map Item.name).toFinset.filter (fun x => x ∉ processed)) := by
    simp only [Finset.mem_filter, List.mem_toFinset]
    exact ⟨hmem, hnot⟩
  rw [Finset.card_erase_of_mem hdep]
  have : 0 < ((catalog.map Item.name).toFinset.filter (fun x => x ∉ processed)).card :=
    Finset.card_pos.mpr ⟨dep, hdep⟩
  omega

theorem unseen_append_not_mem (catalog : Catalog) (processed : List String) (dep : String)
    (hmem : dep ∉ catalog.map Item.name) :
    unseen catalog (processed ++ [dep]) = unseen catalog processed := by
  unfold unseen
  congr 1
  apply Finset.filter_congr
  intro x hx
  simp only [List.mem_toFinset] at hx
  have hxd : x ≠ dep := fun h => hmem (h ▸ hx)
  simp only [List.mem_append, List.mem_singleton, eq_iff_iff]
  constructor
  · intro h hx2
    exact h (Or.inl hx2)
  · intro h hx2
    rcases hx2 with hx2 | hx2
    · exact h hx2
    · exact hxd hx2

theorem find_item_by_name_mem {catalog : Catalog} {dep : String} {item : Item}
    (h : find_item_by_name catalog dep = some item) : item ∈ catalog :=
  List.mem_of_find?_eq_some h

theorem find_item_by_name_name {catalog : Catalog} {dep : String} {item : Item}
    (h : find_item_by_name catalog dep = some item) : item.name = dep := by
  have := List.find?_some h
  simpa using this

theorem find_item_by_name_none {catalog : Catalog} {dep : String}
    (h : find_item_by_name catalog dep = none) : dep ∉ catalog.map Item.name := by
  intro hmem
  rcases List.mem_map.mp hmem with ⟨item, hitem, hname⟩
  have := List.find?_eq_none.mp h item hitem
  simp [hname] at this

/-- Lemma: `processDeps` preserves the loop measure exactly: each element appended
to the queue removes one catalog name from the unseen count. -/
theorem processDeps_measure (catalog : Catalog) (deps : List String) (s : ExpState) :
    (processDeps catalog deps s).queue.length
        + unseen catalog (processDeps catalog deps s).processed
      = s.queue.length + unseen catalog s.processed := by
  induction deps generalizing s with
  | nil => rfl
  | cons dep rest ih =>
    unfold processDeps
    by_cases h : dep ∈ s.processed
    · simp only [if_pos h]
      exact ih s
    · simp only [if_neg h]
      cases hf : find_item_by_name catalog dep with
      | none => exact ih _
      | some item =>
        rw [ih]
        simp only [List.length_append, List.length_singleton]
        have hmem : dep ∈ catalog.map Item.name := by
          have h1 := find_item_by_name_mem hf
          have h2 := find_item_by_name_name hf
          exact List.mem_map.mpr ⟨item, h1, h2⟩
        have := unseen_append_mem catalog s.processed dep hmem h
        omega

/-- The `while to_process:` loop of src/app.py lines 1010-1020: pop the head
name, look it up in the dependency map, and process its dependency list. -/
def expandLoop (catalog : Catalog) (depMap : DepMap) (s : ExpState) : ExpState :=
  match hq : s.queue with
  | [] => s
  | _current :: restQueue =>
    match List.lookup _current depMap with
    | none => expandLoop catalog depMap { s with queue := restQueue }
    | some deps =>
      expandLoop catalog depMap (processDeps catalog deps { s with queue := restQueue })
termination_by s.queue.length + unseen catalog s.processed
decreasing_by
  · simp only [hq, List.length_cons]
    omega
  · rw [processDeps_measure]
    simp only [hq, List.length_cons]
    omega

/-- The list `items_to_download` from src/app.py lines 974-976: the catalog filtered
to the names the user selected (list membership, as in the source). -/
def items_to_download (requested : List String) (catalog : Catalog) : List Item :=
  catalog.filter (fun d => decide (d.name ∈ requested))

/-- Full final state of the dependency-expansion loop of
`DownloaderApp.start_download` (src/app.py 990-1020), started from the
confirmed selection: queue and processed set seeded with the requested
items' names, extras empty. -/
def expandState (requested : List String) (catalog : Catalog) (depMap : DepMap) : ExpState :=
  expandLoop catalog depMap
    { queue := (items_to_download requested catalog).map Item.name,
      processed := (items_to_download requested catalog).map Item.name,
      extras := [], lookups := [] }

/-- The dependency expansion of `DownloaderApp.start_download`
(src/app.py 990-1023): the confirmed items followed by the discovered
`extra_items` (`items_to_download.extend(extra_items)`). -/
def expand (requested : List String) (catalog : Catalog) (depMap : DepMap) : List Item :=
  items_to_download requested catalog ++ (expandState requested catalog depMap).extras

/-! ## Spec-side model of the Dependency Expander (for the refinement claim)

The following definitions are transcribed from the specification's §4.1
wording, not from the source; they exist to be compared with the
source-derived `expand`. The one behavioural difference in the spec's
words: a dependency name looked up in the catalog and *not* found is also
marked visited. -/

/-- Spec §4.1 traversal state: work queue, visited-name set (seeded with
the requested names), result extras. -/
structure SpecState where
  queue : List String
  visited : List String
  extras : List Item
deriving Repr

/-- Modelled from the spec §4.1: "for each dependency name not yet visited,
look it up in the catalog — if found, append its CatalogItem to the result
and the work queue, and mark it visited; if not found, mark visited (to
avoid re-processing) but do not append to the result." -/
def specStep (catalog : Catalog) (deps : List String) (t : SpecState) : SpecState :=
  match deps with
  | [] => t
  | dep :: rest =>
    if dep ∈ t.visited then
      specStep catalog rest t
    else
      match find_item_by_name catalog dep with
      | some item =>
        specStep catalog rest
          { queue := t.queue ++ [dep], visited := t.visited ++ [dep],
            extras := t.extras ++ [item] }
      | none =>
        specStep catalog rest { t with visited := t.visited ++ [dep] }

theorem specStep_measure (catalog : Catalog) (deps : List String) (t : SpecState) :
    (specStep catalog deps t).queue.length
        + unseen catalog (specStep catalog deps t).visited
      = t.queue.length + unseen catalog t.visited := by
  induction deps generalizing t with
  | nil => rfl
  | cons dep rest ih =>
    unfold specStep
    by_cases h : dep ∈ t.visited
    · simp only [if_pos h]
      exact ih t
    · simp only [if_neg h]
      cases hf : find_item_by_name catalog dep with
      | none =>
        rw [ih]
        simp only
        rw [unseen_append_not_mem catalog t.visited dep (find_item_by_name_none hf)]
      | some item =>
        rw [ih]
        simp only [List.length_append, List.length_singleton]
        have hmem : dep ∈ catalog.map Item.name :=
          List.mem_map.mpr ⟨item, find_item_by_name_mem hf, find_item_by_name_name hf⟩
        have := unseen_append_mem catalog t.visited dep hmem h
        omega

/-- Modelled from the spec §4.1: "Process a work queue: pop a name, look it
up in depMap", dependencies handled by `specStep`. -/
def specLoop (catalog : Catalog) (depMap : DepMap) (t : SpecState) : SpecState :=
  match hq : t.queue with
  | [] => t
  | c :: restQueue =>
    match List.lookup c depMap with
    | none => specLoop catalog depMap { t with queue := restQueue }
    | some deps =>
      specLoop catalog depMap (specStep catalog deps { t with queue := restQueue })
termination_by t.queue.length + unseen catalog t.visited
decreasing_by
  · simp only [hq, List.length_cons]
    omega
  · rw [specStep_measure]
    simp only [hq, List.length_cons]
    omega

/-- Modelled from the spec §4.1: "breadth-first traversal starting from
`requested` ... Maintain a visited-name set seeded with `requested` ...
Returns the original requested items (resolved to CatalogItem) followed by
all discovered extras, preserving first-discovery order among extras." -/
def specExpand (initial : List Item) (catalog : Catalog) (depMap : DepMap) : List Item :=
  initial ++ (specLoop catalog depMap
    { queue := initial.map Item.name, visited := initial.map Item.name, extras := [] }).extras

/-- The source-derived expansion, started from an arbitrary confirmed item
sequence (the `items_to_download` list of src/app.py line 974): the loop of
lines 1006-1020 followed by `items_to_download.extend(extra_items)`. -/
def expandFrom (initial : List Item) (catalog : Catalog) (depMap : DepMap) : List Item :=
  initial ++ (expandLoop catalog depMap
    { queue := initial.map Item.name, processed := initial.map Item.name,
      extras := [], lookups := [] }).extras

/-! ## Batch Orchestrator (worker loop of `start_download`, src/app.py 1027-1055) -/

/-- The per-item loop of the `worker` in `start_download` (src/app.py
1035-1048): each item is attempted in order; `ok item` abstracts whether
`download_file` completed without raising for that item; an exception sets
`overall_success = False` and the loop proceeds to the next item. Returns
the list of attempted items in order, and the final `overall_success`. -/
def runBatchLoop (ok : Item → Bool) (items : List Item) (overall : Bool) :
    List Item × Bool :=
  match items with
  | [] => ([], overall)
  | x :: xs =>
    let r := runBatchLoop ok xs (overall && ok x)
    (x :: r.1, r.2)

/-! ## Run Log Recorder (`DownloaderApp.save_log`, src/app.py 670-687) -/

/-- Base-name selection of src/app.py line 671:
`base = "successlog" if success else "logerror"`. -/
def logBase (success : Bool) : String :=
  if success then ("successlog") else ("logerror")

/-- The candidate file name of src/app.py line 676: `f"{base}{n}.txt"`. -/
def logFileName (base : String) (n : Nat) : String :=
  base ++ Nat.repr n ++ ".txt"

/-- The `while True` scan of src/app.py lines 674-679, searching upward from
`n` for a candidate name not present in the log directory. The directory
contents are modelled as the list `existing` of file names; the loop is
given fuel, and `existing.length + 1` fuel is proven sufficient below. -/
def save_log_loop (existing : List String) (base : String) : Nat → Nat → Nat
  | 0, n => n
  | fuel + 1, n =>
    if logFileName base n ∈ existing then save_log_loop existing base fuel (n + 1)
    else n

/-- The index chosen by `save_log` for the given outcome class. -/
def save_log_index (existing : List String) (success : Bool) : Nat :=
  save_log_loop existing (logBase success) (existing.length + 1) 1

/-- The file name `save_log` writes to (src/app.py 670-687), as a function
of the log directory contents and the batch outcome. -/
def save_log (existing : List String) (success : Bool) : String :=
  logFileName (logBase success) (save_log_index existing success)

/-! ## Transfer Engine (`download_file`, src/app.py 101-137) -/

/-- The destination path of a transfer: its file name (`destination.name`),
full path string, and extension (`destination.suffix`, empty when none). -/
structure Destination where
  fname : String
  path : String
  ext : String
deriving DecidableEq, Repr

/-- One streamed HTTP response, as `download_file` consumes it:
whether `raise_for_status()` passes (`ok`), the exception message it raises
otherwise, the `Content-Length` header (0 when absent, as in
`int(response.headers.get("Content-Length", "0"))`), and the successive
chunk outcomes of `iter_content` — each either a chunk's byte count or the
message of the exception raised while reading/writing it. -/
structure HttpResponse where
  ok : Bool
  errMsg : String
  contentLength : Nat
  chunks : List (Except String Nat)
deriving Repr

/-- Result state of the chunk loop of src/app.py lines 114-128. -/
structure ChunkLoopOut where
  downloaded : Nat
  nextPct : ℚ
  logs : List String
  statuses : List String
  thresholds : List ℚ
  exc : Option String
deriving Repr

/-- The chunk loop of src/app.py lines 114-128: skip empty chunks, write and
count bytes, and when a total is declared emit a progress log/status line
whenever `percent >= next_percent_log`, then advance the threshold by 5.
Python computes `percent` in floating point; it is modelled here in exact
rational arithmetic. The textual `{percent:.1f}` formatting is abstracted
by `toString`. The ghost field `thresholds` records the value of
`next_percent_log` at each declared-length progress emission. -/
def dlChunkLoop (total : Nat) (chunks : List (Except String Nat))
    (downloaded : Nat) (nextPct : ℚ) (logs statuses : List String)
    (thr : List ℚ) : ChunkLoopOut :=
  match chunks with
  | [] =>
    { downloaded := downloaded, nextPct := nextPct, logs := logs,
      statuses := statuses, thresholds := thr, exc := none }
  | Except.error e :: _ =>
    { downloaded := downloaded, nextPct := nextPct, logs := logs,
      statuses := statuses, thresholds := thr, exc := some e }
  | Except.ok csize :: rest =>
    if csize = 0 then
      dlChunkLoop total rest downloaded nextPct logs statuses thr
    else
      let d := downloaded + csize
      if total ≠ 0 then
        let percent : ℚ := (d : ℚ) / (total : ℚ) * 100
        if percent ≥ nextPct then
          dlChunkLoop total rest d (nextPct + 5)
            (logs ++ ["Downloading... " ++ toString percent ++ "%"])
            (statuses ++ ["Downloading... " ++ toString percent ++ "%"])
            (thr ++ [nextPct])
        else
          dlChunkLoop total rest d nextPct logs statuses thr
      else
        if d % (256 * 1024) < 8192 then
          dlChunkLoop total rest d nextPct logs
            (statuses ++ ["Downloading... " ++ toString (d / 1024) ++ " KB"]) thr
        else
          dlChunkLoop total rest d nextPct logs statuses thr

/-- Observable events of one `download_file` call: log lines, status lines,
readiness signals (each in emission order), the outcome (`Except.error e`
models the re-raised exception), and the ghost threshold trace. -/
structure TransferEvents where
  logs : List String
  statuses : List String
  readies : List String
  result : Except String Unit
  thresholds : List ℚ
deriving Repr

/-- The `except` branch of src/app.py lines 132-137: log the failure, set an
error status, signal readiness, re-raise. -/
def failEvents (logs statuses : List String) (thr : List ℚ) (e : String) :
    TransferEvents :=
  { logs := logs ++ ["Failed: " ++ e], statuses := statuses ++ ["Error: " ++ e],
    readies := ["Ready"], result := Except.error e, thresholds := thr }

/-- Function `download_file` from src/app.py lines 101-137, as a function from the
destination and the abstract response outcome to the emitted events.
`resp = Except.error e` models an exception from `requests.get` itself. -/
def download_file (dest : Destination) (resp : Except String HttpResponse) :
    TransferEvents :=
  let logs0 := ["Starting download: " ++ dest.fname, "Target path: " ++ dest.path,
                "Extension: " ++ (if dest.ext = "" then ("none") else dest.ext)]
  let st0 := ["Retrieving: " ++ dest.fname]
  match resp with
  | Except.error e => failEvents logs0 st0 [] e
  | Except.ok r =>
    if r.ok = false then failEvents logs0 st0 [] r.errMsg
    else
      let o := dlChunkLoop r.contentLength r.chunks 0 5 logs0 st0 []
      match o.exc with
      | some e => failEvents o.logs o.statuses o.thresholds e
      | none =>
        { logs := o.logs ++ ["Saved: " ++ dest.path],
          statuses := o.statuses ++ ["Finished: " ++ dest.fname],
          readies := ["Ready"], result := Except.ok (),
          thresholds := o.thresholds }

/-- Total payload bytes carried by a chunk-outcome list. -/
def chunkBytes (chunks : List (Except String Nat)) : Nat :=
  (chunks.map (fun c => match c with | Except.ok n => n | Except.error _ => 0)).sum

/-- The outcome of reading/writing one chunk, as an optional exception. -/
def chunkErr : Except String Nat → Option String :=
  fun c => match c with
  | Except.error e => some e
  | Except.ok _ => none

/-- The first exception the Python control flow meets for a given response:
a `requests.get` failure, else the `raise_for_status` failure, else the
first failing chunk. -/
def firstError (resp : Except String HttpResponse) : Option String :=
  match resp with
  | Except.error e => some e
  | Except.ok r =>
    if r.ok = false then some r.errMsg
    else r.chunks.findSome? chunkErr

/-- The first `k` progress thresholds `5%, 10%, ..., 5k%`. -/
def fiveMultiples (k : Nat) : List ℚ :=
  (List.range k).map (fun i => ((5 * (i + 1) : Nat) : ℚ))

/-! ## Modrinth client (`src/modrinth.py`) -/

/-- One HTTP response as the Modrinth client sees it: the status code and
the outcome of `resp.json()` (which may itself raise). -/
structure NetResponse (α : Type) where
  status : Nat
  body : Except String α
deriving Repr

/-- A network call outcome: `Except.error` models an exception from
`session.get` itself. -/
abbrev NetOutcome (α : Type) := Except String (NetResponse α)

/-- Whether `resp.raise_for_status()` passes: the requests library raises
`HTTPError` only for client-error and server-error statuses 400-599, so any
other final status (1xx, 2xx, 3xx) passes. -/
def status_ok (s : Nat) : Bool := !(400 ≤ s && s < 600)

/-- The version object consumed by `get_version_dependencies`
(src/modrinth.py 42-54): `data.get("dependencies", [])`, the field may be
absent. -/
structure VersionObj (α : Type) where
  dependencies : Option (List α)
deriving Repr

/-- The payload consumed by `get_project_dependencies`
(src/modrinth.py 56-67): `data.get("projects", [])`. -/
structure ProjectsObj (α : Type) where
  projects : Option (List α)
deriving Repr

/-- Method `ModrinthClient.get_project` (src/modrinth.py 11-21): returns the parsed
body on a 2xx response, `None` on any exception. -/
def get_project {α : Type} (resp : NetOutcome α) : Option α :=
  match resp with
  | Except.error _ => none
  | Except.ok r =>
    if status_ok r.status then
      match r.body with
      | Except.ok b => some b
      | Except.error _ => none
    else none

/-- Method `ModrinthClient.get_versions` (src/modrinth.py 23-40): returns the parsed
version list on a 2xx response, `[]` on any exception. -/
def get_versions {α : Type} (resp : NetOutcome (List α)) : List α :=
  match resp with
  | Except.error _ => []
  | Except.ok r =>
    if status_ok r.status then
      match r.body with
      | Except.ok b => b
      | Except.error _ => []
    else []

/-- Method `ModrinthClient.get_version_dependencies` (src/modrinth.py 42-54):
`data.get("dependencies", [])` on success, `[]` on any exception. -/
def get_version_dependencies {α : Type} (resp : NetOutcome (VersionObj α)) : List α :=
  match resp with
  | Except.error _ => []
  | Except.ok r =>
    if status_ok r.status then
      match r.body with
      | Except.ok b =>
        match b.dependencies with
        | some l => l
        | none => []
      | Except.error _ => []
    else []

/-- Method `ModrinthClient.get_project_dependencies` (src/modrinth.py 56-67):
`data.get("projects", [])` on success, `[]` on any exception. -/
def get_project_dependencies {α : Type} (resp : NetOutcome (ProjectsObj α)) : List α :=
  match resp with
  | Except.error _ => []
  | Except.ok r =>
    if status_ok r.status then
      match r.body with
      | Except.ok b =>
        match b.projects with
        | some l => l
        | none => []
      | Except.error _ => []
    else []

/-- Method `ModrinthClient.resolve_latest_valid_version` (src/modrinth.py 69-76):
`versions[0]` when `get_versions` is non-empty, else `None`. -/
def resolve_latest_valid_version {α : Type} (resp : NetOutcome (List α)) : Option α :=
  match get_versions resp with
  | [] => none
  | v :: _ => some v

/-- A failed network interaction: an exception from the request itself, a
status `raise_for_status` raises on (400-599), or a body that fails to
parse. -/
def netFailed {α : Type} (resp : NetOutcome α) : Prop :=
  match resp with
  | Except.error _ => True
  | Except.ok r => status_ok r.status = false ∨ ∃ e, r.body = Except.error e

/-- Refinement relation between the source loop's `processed` set and the
spec's `visited` set: `visited` may additionally hold names absent from the
catalog. -/
def StateRel (catalog : Catalog) (p v : List String) : Prop :=
  (∀ n ∈ p, n ∈ v) ∧ (∀ n ∈ v, n ∉ p → find_item_by_name catalog n = none)

/-! ## Unfolding lemmas for the two loops -/

theorem expandLoop_nil (catalog : Catalog) (depMap : DepMap) (s : ExpState)
    (h : s.queue = []) : expandLoop catalog depMap s = s := by
  rw [expandLoop.eq_def, h]

theorem expandLoop_cons_none (catalog : Catalog) (depMap : DepMap) (s : ExpState)
    (c : String) (rest : List String) (h : s.queue = c :: rest)
    (hl : List.lookup c depMap = none) :
    expandLoop catalog depMap s = expandLoop catalog depMap { s with queue := rest } := by
  rw [expandLoop.eq_def, h]
  simp [hl]

theorem expandLoop_cons_some (catalog : Catalog) (depMap : DepMap) (s : ExpState)
    (c : String) (rest deps : List String) (h : s.queue = c :: rest)
    (hl : List.lookup c depMap = some deps) :
    expandLoop catalog depMap s
      = expandLoop catalog depMap (processDeps catalog deps { s with queue := rest }) := by
  rw [expandLoop.eq_def, h]
  simp [hl]

theorem specLoop_nil (catalog : Catalog) (depMap : DepMap) (t : SpecState)
    (h : t.queue = []) : specLoop catalog depMap t = t := by
  rw [specLoop.eq_def, h]

theorem specLoop_cons_none (catalog : Catalog) (depMap : DepMap) (t : SpecState)
    (c : String) (rest : List String) (h : t.queue = c :: rest)
    (hl : List.lookup c depMap = none) :
    specLoop catalog depMap t = specLoop catalog depMap { t with queue := rest } := by
  rw [specLoop.eq_def, h]
  simp [hl]

theorem specLoop_cons_some (catalog : Catalog) (depMap : DepMap) (t : SpecState)
    (c : String) (rest deps : List String) (h : t.queue = c :: rest)
    (hl : List.lookup c depMap = some deps) :
    specLoop catalog depMap t
      = specLoop catalog depMap (specStep catalog deps { t with queue := rest }) := by
  rw [specLoop.eq_def, h]
  simp [hl]

/-! ## Invariants of the source expansion loop -/

/-- Only found names are added to `processed`: the `processed` list always
equals the seed names followed by the names of the collected extras. -/
theorem processDeps_processed_eq (catalog : Catalog) (deps : List String) :
    ∀ (s : ExpState) (base : List String),
      s.processed = base ++ s.extras.map Item.name →
      (processDeps catalog deps s).processed
        = base ++ (processDeps catalog deps s).extras.map Item.name := by
  induction deps with
  | nil => intro s base h; exact h
  | cons dep rest ih =>
    intro s base h
    unfold processDeps
    by_cases hmem : dep ∈ s.processed
    · simp only [if_pos hmem]
      exact ih s base h
    · simp only [if_neg hmem]
      cases hf : find_item_by_name catalog dep with
      | none => exact ih _ base h
      | some item =>
        apply ih
        simp only [List.map_append, List.map_cons, List.map_nil, h,
          find_item_by_name_name hf, List.append_assoc]

theorem processDeps_processed_nodup (catalog : Catalog) (deps : List String) :
    ∀ (s : ExpState), s.processed.Nodup → (processDeps catalog deps s).processed.Nodup := by
  induction deps with
  | nil => intro s h; exact h
  | cons dep rest ih =>
    intro s h
    unfold processDeps
    by_cases hmem : dep ∈ s.processed
    · simp only [if_pos hmem]
      exact ih s h
    · simp only [if_neg hmem]
      cases hf : find_item_by_name catalog dep with
      | none => exact ih _ h
      | some item =>
        apply ih
        simp only [List.nodup_append, h, List.nodup_cons, List.not_mem_nil,
          not_false_eq_true, List.nodup_nil, and_self, List.disjoint_singleton,
          hmem, true_and]

theorem processDeps_extras_mem (catalog : Catalog) (deps : List String) :
    ∀ (s : ExpState), (∀ i ∈ s.extras, i ∈ catalog) →
      ∀ i ∈ (processDeps catalog deps s).extras, i ∈ catalog := by
  induction deps with
  | nil => intro s h; exact h
  | cons dep rest ih =>
    intro s h
    unfold processDeps
    by_cases hmem : dep ∈ s.processed
    · simp only [if_pos hmem]
      exact ih s h
    · simp only [if_neg hmem]
      cases hf : find_item_by_name catalog dep with
      | none => exact ih _ h
      | some item =>
        apply ih
        intro i hi
        rcases List.mem_append.mp hi with h1 | h1
        · exact h i h1
        · simp only [List.mem_singleton] at h1
          exact h1 ▸ find_item_by_name_mem hf

theorem expandLoop_processed_eq (catalog : Catalog) (depMap : DepMap)
    (base : List String) :
    ∀ s : ExpState, s.processed = base ++ s.extras.map Item.name →
      (expandLoop catalog depMap s).processed
        = base ++ (expandLoop catalog depMap s).extras.map Item.name := by
  intro s
  induction s using expandLoop.induct catalog depMap with
  | case1 x hq =>
    intro h
    rw [expandLoop_nil catalog depMap x hq]
    exact h
  | case2 x c rest hq hl ih =>
    intro h
    rw [expandLoop_cons_none catalog depMap x c rest hq hl]
    exact ih h
  | case3 x c rest hq deps hl ih =>
    intro h
    rw [expandLoop_cons_some catalog depMap x c rest deps hq hl]
    exact ih (processDeps_processed_eq catalog deps _ base h)

theorem expandLoop_processed_nodup (catalog : Catalog) (depMap : DepMap) :
    ∀ s : ExpState, s.processed.Nodup → (expandLoop catalog depMap s).processed.Nodup := by
  intro s
  induction s using expandLoop.induct catalog depMap with
  | case1 x hq =>
    intro h
    rw [expandLoop_nil catalog depMap x hq]
    exact h
  | case2 x c rest hq hl ih =>
    intro h
    rw [expandLoop_cons_none catalog depMap x c rest hq hl]
    exact ih h
  | case3 x c rest hq deps hl ih =>
    intro h
    rw [expandLoop_cons_some catalog depMap x c rest deps hq hl]
    exact ih (processDeps_processed_nodup catalog deps _ h)

theorem expandLoop_extras_mem (catalog : Catalog) (depMap : DepMap) :
    ∀ s : ExpState, (∀ i ∈ s.extras, i ∈ catalog) →
      ∀ i ∈ (expandLoop catalog depMap s).extras, i ∈ catalog := by
  intro s
  induction s using expandLoop.induct catalog depMap with
  | case1 x hq =>
    intro h
    rw [expandLoop_nil catalog depMap x hq]
    exact h
  | case2 x c rest hq hl ih =>
    intro h
    rw [expandLoop_cons_none catalog depMap x c rest hq hl]
    exact ih h
  | case3 x c rest hq deps hl ih =>
    intro h
    rw [expandLoop_cons_some catalog depMap x c rest deps hq hl]
    exact ih (processDeps_extras_mem catalog deps _ h)

/-! ## Lockstep refinement between source loop and spec loop -/

theorem processDeps_specStep_rel (catalog : Catalog) (deps : List String) :
    ∀ (s : ExpState) (t : SpecState), StateRel catalog s.processed t.visited →
      t.queue = s.queue → t.extras = s.extras →
      StateRel catalog (processDeps catalog deps s).processed
          (specStep catalog deps t).visited ∧
        (specStep catalog deps t).queue = (processDeps catalog deps s).queue ∧
        (specStep catalog deps t).extras = (processDeps catalog deps s).extras := by
  induction deps with
  | nil => intro s t h hq he; exact ⟨h, hq, he⟩
  | cons dep rest ih =>
    intro s t h hq he
    unfold processDeps specStep
    by_cases hp : dep ∈ s.processed
    · have hv : dep ∈ t.visited := h.1 dep hp
      simp only [if_pos hp, if_pos hv]
      exact ih s t h hq he
    · simp only [if_neg hp]
      by_cases hv : dep ∈ t.visited
      · have hf : find_item_by_name catalog dep = none := h.2 dep hv hp
        simp only [if_pos hv, hf]
        exact ih { s with lookups := s.lookups ++ [dep] } t h hq he
      · simp only [if_neg hv]
        cases hf : find_item_by_name catalog dep with
        | some item =>
          apply ih
          · constructor
            · intro n hn
              rcases List.mem_append.mp hn with h1 | h1
              · exact List.mem_append_left _ (h.1 n h1)
              · exact List.mem_append_right _ h1
            · intro n hn hnp
              rcases List.mem_append.mp hn with h1 | h1
              · exact h.2 n h1 (fun hc => hnp (List.mem_append_left _ hc))
              · exact absurd (List.mem_append_right _ h1) hnp
          · simp only [hq]
          · simp only [he]
        | none =>
          apply ih
          · constructor
            · intro n hn
              exact List.mem_append_left _ (h.1 n hn)
            · intro n hn hnp
              rcases List.mem_append.mp hn with h1 | h1
              · exact h.2 n h1 hnp
              · simp only [List.mem_singleton] at h1
                exact h1 ▸ hf
          · exact hq
          · exact he

theorem expandLoop_specLoop_extras (catalog : Catalog) (depMap : DepMap) :
    ∀ s : ExpState, ∀ t : SpecState, StateRel catalog s.processed t.visited →
      t.queue = s.queue → t.extras = s.extras →
      (specLoop catalog depMap t).extras = (expandLoop catalog depMap s).extras := by
  intro s
  induction s using expandLoop.induct catalog depMap with
  | case1 x hq =>
    intro t _ hq' he
    rw [expandLoop_nil catalog depMap x hq,
      specLoop_nil catalog depMap t (by rw [hq', hq])]
    exact he
  | case2 x c rest hq hl ih =>
    intro t hrel hq' he
    rw [expandLoop_cons_none catalog depMap x c rest hq hl,
      specLoop_cons_none catalog depMap t c rest (by rw [hq', hq]) hl]
    exact ih { t with queue := rest } hrel rfl he
  | case3 x c rest hq deps hl ih =>
    intro t hrel hq' he
    rw [expandLoop_cons_some catalog depMap x c rest deps hq hl,
      specLoop_cons_some catalog depMap t c rest deps (by rw [hq', hq]) hl]
    obtain ⟨hrel2, hq2, he2⟩ := processDeps_specStep_rel catalog deps
      { x with queue := rest } { t with queue := rest } hrel rfl he
    exact ih _ hrel2 hq2 he2

/-! ## Decimal printing is injective (for log file-name freshness) -/

/-- Numeric value of a decimal digit character. -/
def digitVal (c : Char) : Nat := c.toNat - 48

/-- Value of a big-endian decimal digit string. -/
def ofDigChars (ds : List Char) : Nat :=
  ds.foldl (fun acc c => 10 * acc + digitVal c) 0

theorem digitVal_digitChar (m : Nat) (h : m < 10) :
    digitVal (Nat.digitChar m) = m := by
  interval_cases m <;> rfl

theorem toDigitsCore_append (b : Nat) :
    ∀ (fuel n : Nat) (ds : List Char),
      Nat.toDigitsCore b fuel n ds = Nat.toDigitsCore b fuel n [] ++ ds := by
  intro fuel
  induction fuel with
  | zero => intro n ds; rfl
  | succ fuel ih =>
    intro n ds
    simp only [Nat.toDigitsCore]
    by_cases h : n / b = 0
    · simp only [if_pos h]
      rfl
    · simp only [if_neg h]
      rw [ih (n / b) ((n % b).digitChar :: ds), ih (n / b) [(n % b).digitChar]]
      simp

theorem toDigitsCore_fuel (f₁ : Nat) :
    ∀ (f₂ n : Nat), n < f₁ → n < f₂ →
      Nat.toDigitsCore 10 f₁ n [] = Nat.toDigitsCore 10 f₂ n [] := by
  induction f₁ with
  | zero => intro f₂ n h1; omega
  | succ f₁ ih =>
    intro f₂ n h1 h2
    cases f₂ with
    | zero => omega
    | succ f₂ =>
      simp only [Nat.toDigitsCore]
      by_cases h : n / 10 = 0
      · simp only [if_pos h]
      · simp only [if_neg h]
        rw [toDigitsCore_append 10 f₁, toDigitsCore_append 10 f₂]
        have hlt : n / 10 < n := Nat.div_lt_self (by omega) (by omega)
        rw [ih f₂ (n / 10) (by omega) (by omega)]

theorem ofDigChars_append_single (ds : List Char) (c : Char) :
    ofDigChars (ds ++ [c]) = 10 * ofDigChars ds + digitVal c := by
  unfold ofDigChars
  rw [List.foldl_append]
  rfl

theorem ofDigChars_toDigits (n : Nat) :
    ofDigChars (Nat.toDigitsCore 10 (n + 1) n []) = n := by
  induction n using Nat.strong_induction_on with
  | _ n ih =>
    simp only [Nat.toDigitsCore]
    by_cases h : n / 10 = 0
    · simp only [if_pos h]
      show ofDigChars [(n % 10).digitChar] = n
      unfold ofDigChars
      simp only [List.foldl_cons, List.foldl_nil]
      rw [digitVal_digitChar (n % 10) (Nat.mod_lt n (by omega))]
      omega
    · simp only [if_neg h]
      have hlt : n / 10 < n := Nat.div_lt_self (by omega) (by omega)
      rw [toDigitsCore_append 10 n (n / 10)]
      rw [toDigitsCore_fuel n (n / 10 + 1) (n / 10) (by omega) (by omega)]
      rw [ofDigChars_append_single]
      rw [ih (n / 10) hlt]
      rw [digitVal_digitChar (n % 10) (Nat.mod_lt n (by omega))]
      omega

theorem Nat.repr_injective : Function.Injective Nat.repr := by
  intro m n h
  have hd : Nat.toDigits 10 m = Nat.toDigits 10 n := by
    have := congrArg String.data h
    simpa [Nat.repr, List.asString] using this
  have := congrArg ofDigChars hd
  unfold Nat.toDigits at this
  rwa [ofDigChars_toDigits, ofDigChars_toDigits] at this

theorem logFileName_injective (base : String) :
    Function.Injective (logFileName base) := by
  intro m n h
  unfold logFileName at h
  have hd := congrArg String.data h
  simp only [String.data_append] at hd
  have h1 := List.append_cancel_right hd
  have h2 := List.append_cancel_left h1
  have : Nat.repr m = Nat.repr n := by
    apply congrArg List.asString at h2
    simpa [List.asString] using h2
  exact Nat.repr_injective this

/-! ## Correctness of the `save_log` file-name scan -/

theorem exists_free_index (existing : List String) (base : String) (n : Nat) :
    ∃ k, k ≤ existing.length ∧ logFileName base (n + k) ∉ existing := by
  by_contra hcon
  push_neg at hcon
  set L := existing.length with hL
  have hall : ∀ k ∈ List.range (L + 1), logFileName base (n + k) ∈ existing := by
    intro k hk
    exact hcon k (by simpa using Nat.lt_succ_iff.mp (List.mem_range.mp hk))
  have hnd : ((List.range (L + 1)).map (fun k => logFileName base (n + k))).Nodup := by
    apply List.Nodup.map
    · intro a b hab
      have := logFileName_injective base hab
      omega
    · exact List.nodup_range (L + 1)
  have hsub : ((List.range (L + 1)).map (fun k => logFileName base (n + k))).toFinset
      ⊆ existing.toFinset := by
    intro x hx
    simp only [List.mem_toFinset, List.mem_map] at hx
    rcases hx with ⟨k, hk, rfl⟩
    exact List.mem_toFinset.mpr (hall k hk)
  have hcard := Finset.card_le_card hsub
  rw [List.toFinset_card_of_nodup hnd] at hcard
  simp only [List.length_map, List.length_range] at hcard
  have := List.toFinset_card_le existing
  omega

theorem save_log_loop_spec (existing : List String) (base : String) :
    ∀ (fuel n : Nat), (∃ k < fuel, logFileName base (n + k) ∉ existing) →
      logFileName base (save_log_loop existing base fuel n) ∉ existing ∧
      n ≤ save_log_loop existing base fuel n ∧
      ∀ m, n ≤ m → m < save_log_loop existing base fuel n →
        logFileName base m ∈ existing := by
  intro fuel
  induction fuel with
  | zero =>
    intro n h
    rcases h with ⟨k, hk, _⟩
    omega
  | succ fuel ih =>
    intro n h
    unfold save_log_loop
    by_cases hmem : logFileName base n ∈ existing
    · simp only [if_pos hmem]
      have h' : ∃ k < fuel, logFileName base (n + 1 + k) ∉ existing := by
        rcases h with ⟨k, hk, hfree⟩
        cases k with
        | zero => exact absurd hmem (by simpa using hfree)
        | succ k =>
          exact ⟨k, by omega, by
            have : n + 1 + k = n + (k + 1) := by omega
            rw [this]; exact hfree⟩
      obtain ⟨hfree, hle, hleast⟩ := ih (n + 1) h'
      refine ⟨hfree, by omega, ?_⟩
      intro m hm1 hm2
      by_cases hmn : m = n
      · exact hmn ▸ hmem
      · exact hleast m (by omega) hm2
    · simp only [if_neg hmem]
      refine ⟨hmem, le_refl n, ?_⟩
      intro m hm1 hm2
      exact absurd hm2 (by omega)

theorem save_log_index_spec (existing : List String) (success : Bool) :
    logFileName (logBase success) (save_log_index existing success) ∉ existing ∧
    1 ≤ save_log_index existing success ∧
    ∀ m, 1 ≤ m → m < save_log_index existing success →
      logFileName (logBase success) m ∈ existing := by
  unfold save_log_index
  apply save_log_loop_spec
  rcases exists_free_index existing (logBase success) 1 with ⟨k, hk, hfree⟩
  exact ⟨k, by omega, hfree⟩

/-! ## Batch orchestrator lemmas -/

theorem runBatchLoop_eq (ok : Item → Bool) :
    ∀ (items : List Item) (overall : Bool),
      runBatchLoop ok items overall = (items, overall && items.all ok) := by
  intro items
  induction items with
  | nil => intro overall; simp [runBatchLoop]
  | cons x xs ih =>
    intro overall
    simp only [runBatchLoop, ih, List.all_cons]
    rw [Bool.and_assoc]

/-! ## Transfer engine lemmas -/

theorem fiveMultiples_succ (k : Nat) :
    fiveMultiples (k + 1) = fiveMultiples k ++ [((5 * (k + 1) : Nat) : ℚ)] := by
  unfold fiveMultiples
  rw [List.range_succ, List.map_append]
  rfl

theorem fiveMultiples_length (k : Nat) : (fiveMultiples k).length = k := by
  simp [fiveMultiples]

theorem fiveMultiples_pairwise (k : Nat) : (fiveMultiples k).Pairwise (· < ·) := by
  unfold fiveMultiples
  rw [List.pairwise_map]
  apply List.Pairwise.imp ?_ (List.pairwise_lt_range k)
  intro a b hab
  have h : 5 * (a + 1) < 5 * (b + 1) := by omega
  exact_mod_cast h

/-- The chunk loop stops at, and reports, the first failing chunk. -/
theorem dlChunkLoop_exc (total : Nat) :
    ∀ (chunks : List (Except String Nat)) (d : Nat) (np : ℚ)
      (logs st : List String) (thr : List ℚ),
      (dlChunkLoop total chunks d np logs st thr).exc = chunks.findSome? chunkErr := by
  intro chunks
  induction chunks with
  | nil => intro d np logs st thr; rfl
  | cons c rest ih =>
    intro d np logs st thr
    cases c with
    | error e => simp [dlChunkLoop, List.findSome?_cons, chunkErr]
    | ok csize =>
      rw [List.findSome?_cons]
      show (dlChunkLoop total (Except.ok csize :: rest) d np logs st thr).exc
        = match chunkErr (Except.ok csize) with
          | some b => some b
          | none => List.findSome? chunkErr rest
      simp only [chunkErr]
      unfold dlChunkLoop
      by_cases h0 : csize = 0
      · simp only [if_pos h0]
        exact ih d np logs st thr
      · simp only [if_neg h0]
        by_cases ht : total ≠ 0
        · simp only [if_pos ht]
          by_cases hpc : ((d + csize : Nat) : ℚ) / (total : ℚ) * 100 ≥ np
          · simp only [if_pos hpc]
            exact ih _ _ _ _ _
          · simp only [if_neg hpc]
            exact ih _ _ _ _ _
        · simp only [if_neg ht]
          by_cases hm : (d + csize) % (256 * 1024) < 8192
          · simp only [if_pos hm]
            exact ih _ _ _ _ _
          · simp only [if_neg hm]
            exact ih _ _ _ _ _

/-- Threshold-trace invariant of the chunk loop: starting from the `k`-th
threshold with the first `k` thresholds already emitted, and with the bytes
still to come fitting under the declared total, the final trace is an
initial run of consecutive 5% thresholds, all of them at most 100%. -/
theorem dlChunkLoop_thr (total : Nat) (htot : total ≠ 0) :
    ∀ (chunks : List (Except String Nat)) (d k : Nat) (logs st : List String),
      d + chunkBytes chunks ≤ total → (k = 0 ∨ 5 * k ≤ 100) →
      ∃ k', (k' = 0 ∨ 5 * k' ≤ 100) ∧
        (dlChunkLoop total chunks d ((5 * (k + 1) : Nat) : ℚ) logs st
          (fiveMultiples k)).thresholds = fiveMultiples k' := by
  intro chunks
  induction chunks with
  | nil => intro d k logs st _ hk; exact ⟨k, hk, rfl⟩
  | cons c rest ih =>
    intro d k logs st hsum hk
    cases c with
    | error e => exact ⟨k, hk, rfl⟩
    | ok csize =>
      have hsum' : d + csize + chunkBytes rest ≤ total := by
        unfold chunkBytes at hsum ⊢
        simp only [List.map_cons, List.sum_cons] at hsum
        omega
      unfold dlChunkLoop
      by_cases h0 : csize = 0
      · simp only [if_pos h0]
        apply ih d k logs st ?_ hk
        unfold chunkBytes at hsum ⊢
        simp only [List.map_cons, List.sum_cons] at hsum
        omega
      · simp only [if_neg h0, if_pos htot]
        by_cases hpc : ((d + csize : Nat) : ℚ) / (total : ℚ) * 100 ≥ ((5 * (k + 1) : Nat) : ℚ)
        · simp only [if_pos hpc]
          have hple : ((d + csize : Nat) : ℚ) / (total : ℚ) * 100 ≤ 100 := by
            have h1 : ((d + csize : Nat) : ℚ) / (total : ℚ) ≤ 1 := by
              rw [div_le_one (by positivity)]
              exact_mod_cast le_trans (by omega) hsum'
            nlinarith
          have hbound : 5 * (k + 1) ≤ 100 := by
            have : ((5 * (k + 1) : Nat) : ℚ) ≤ 100 := le_trans hpc hple
            exact_mod_cast this
          have hcast : ((5 * (k + 1) : Nat) : ℚ) + 5 = ((5 * (k + 1 + 1) : Nat) : ℚ) := by
            push_cast
            ring
          rw [hcast, ← fiveMultiples_succ k]
          exact ih (d + csize) (k + 1) _ _ hsum' (Or.inr hbound)
        · simp only [if_neg hpc]
          exact ih (d + csize) k _ _ hsum' hk

/-! ## Auxiliary facts for duplicate-free catalogs -/

theorem items_to_download_sublist_names (requested : List String) (catalog : Catalog) :
    ((items_to_download requested catalog).map Item.name).Sublist (catalog.map Item.name) :=
  List.Sublist.map Item.name (List.filter_sublist catalog)

theorem items_to_download_singleton (catalog : Catalog) (a : Item)
    (hcat : (catalog.map Item.name).Nodup) (ha : a ∈ catalog) :
    items_to_download [a.name] catalog = [a] := by
  induction catalog with
  | nil => exact absurd ha (List.not_mem_nil a)
  | cons c rest ih =>
    simp only [List.map_cons, List.nodup_cons] at hcat
    rcases List.mem_cons.mp ha with rfl | ha'
    · unfold items_to_download
      rw [List.filter_cons_of_pos (by simp)]
      congr 1
      apply List.filter_eq_nil_iff.mpr
      intro d hd
      simp only [List.mem_singleton, decide_eq_true_eq]
      intro hdn
      exact hcat.1 (hdn ▸ List.mem_map_of_mem Item.name hd)
    · have hne : c.name ≠ a.name := by
        intro h
        exact hcat.1 (h ▸ List.mem_map_of_mem Item.name ha')
      unfold items_to_download
      rw [List.filter_cons_of_neg (by simp [hne])]
      exact ih hcat.2 ha'

theorem find_item_name_unique (catalog : Catalog) (b : Item)
    (hcat : (catalog.map Item.name).Nodup) (hb : b ∈ catalog) :
    find_item_by_name catalog b.name = some b := by
  induction catalog with
  | nil => exact absurd hb (List.not_mem_nil b)
  | cons c rest ih =>
    simp only [List.map_cons, List.nodup_cons] at hcat
    rcases List.mem_cons.mp hb with rfl | hb'
    · unfold find_item_by_name
      rw [List.find?_cons_of_pos _ (by simp)]
    · have hne : c.name ≠ b.name := by
        intro h
        exact hcat.1 (h ▸ List.mem_map_of_mem Item.name hb')
      unfold find_item_by_name
      rw [List.find?_cons_of_neg _ (by simp [hne])]
      exact ih hcat.2 hb'

/-! ## Claim theorems -/

/-- C1: for every requested name set, every catalog (whose names are unique,
as the data model requires), and every dependency map, the expansion result
contains no duplicate names, and its name-set contains every requested name
present in the catalog. -/
theorem expansion_no_duplicates_and_superset (requested : List String)
    (catalog : Catalog) (depMap : DepMap)
    (hcat : (catalog.map Item.name).Nodup) :
    ((expand requested catalog depMap).map Item.name).Nodup ∧
    ∀ n, n ∈ requested → n ∈ catalog.map Item.name →
      n ∈ (expand requested catalog depMap).map Item.name := by
  have hbase : ((items_to_download requested catalog).map Item.name).Nodup :=
    (items_to_download_sublist_names requested catalog).nodup hcat
  have heq := expandLoop_processed_eq catalog depMap
    ((items_to_download requested catalog).map Item.name)
    { queue := (items_to_download requested catalog).map Item.name,
      processed := (items_to_download requested catalog).map Item.name,
      extras := [], lookups := [] } (by simp)
  have hnd := expandLoop_processed_nodup catalog depMap
    { queue := (items_to_download requested catalog).map Item.name,
      processed := (items_to_download requested catalog).map Item.name,
      extras := [], lookups := [] } hbase
  constructor
  · rw [expand, expandState, List.map_append, ← heq]
    exact hnd
  · intro n hreq hcatmem
    rw [expand, List.map_append]
    apply List.mem_append_left
    rcases List.mem_map.mp hcatmem with ⟨i, hi, hname⟩
    apply List.mem_map.mpr
    refine ⟨i, ?_, hname⟩
    unfold items_to_download
    exact List.mem_filter.mpr ⟨hi, by simp [hname, hreq]⟩

/-- C1 witness at a concrete input. -/
theorem expansion_no_duplicates_and_superset_witness :
    ((expand ["A"] [Item.mk ("A") ("u"), Item.mk ("B") ("v")]
        [("A", ["B"])]).map Item.name).Nodup ∧
    ∀ n, n ∈ ["A"] → n ∈ ([Item.mk ("A") ("u"), Item.mk ("B") ("v")] : Catalog).map Item.name →
      n ∈ (expand ["A"] [Item.mk ("A") ("u"), Item.mk ("B") ("v")]
        [("A", ["B"])]).map Item.name :=
  expansion_no_duplicates_and_superset ["A"] [Item.mk ("A") ("u"), Item.mk ("B") ("v")]
    [("A", ["B"])] (by decide)

/-- C2: a dependency-map entry naming an item absent from the catalog never
appears in the expansion result (and the expansion is a total function: no
error is raised). -/
theorem missing_dependency_silently_skipped (requested : List String)
    (catalog : Catalog) (depMap : DepMap) (n : String)
    (hn : n ∉ catalog.map Item.name) :
    n ∉ (expand requested catalog depMap).map Item.name := by
  intro hmem
  rw [expand, expandState, List.map_append] at hmem
  rcases List.mem_append.mp hmem with h1 | h1
  · exact hn ((items_to_download_sublist_names requested catalog).mem h1)
  · have hsub := expandLoop_extras_mem catalog depMap
      { queue := (items_to_download requested catalog).map Item.name,
        processed := (items_to_download requested catalog).map Item.name,
        extras := [], lookups := [] } (by intro i hi; exact absurd hi (List.not_mem_nil i))
    rcases List.mem_map.mp h1 with ⟨i, hi, hname⟩
    exact hn (hname ▸ List.mem_map_of_mem Item.name (hsub i hi))

/-- C2 witness at a concrete input: the map references "Z", absent from the
catalog. -/
theorem missing_dependency_silently_skipped_witness :
    "Z" ∉ (expand ["A"] [Item.mk ("A") ("u")] [("A", ["Z"])]).map Item.name :=
  missing_dependency_silently_skipped ["A"] [Item.mk ("A") ("u")] [("A", ["Z"])] "Z" (by decide)

/-- C3 (as amended): only names found in the catalog are marked visited —
the `processed` set of the finished expansion is exactly the requested
items' names followed by the names of the appended extras; a looked-up name
missing from the catalog is not marked. -/
theorem only_found_names_marked_visited (requested : List String)
    (catalog : Catalog) (depMap : DepMap) :
    (expandState requested catalog depMap).processed
      = (items_to_download requested catalog).map Item.name
        ++ (expandState requested catalog depMap).extras.map Item.name := by
  unfold expandState
  exact expandLoop_processed_eq catalog depMap
    ((items_to_download requested catalog).map Item.name) _ (by simp)

/-- C3 counterexample: with catalog items "A", "B" and dependency map
`A -> [X], B -> [X]` (X absent from the catalog), the missing name "X" is
looked up in the catalog twice — it is re-processed when reached again —
and is never marked visited (never enters `processed`), contradicting the
claim that a not-found name is marked visited and never looked up again. -/
theorem missing_dep_not_marked_visited_cex :
    (expandState ["A", "B"] [Item.mk ("A") ("uA"), Item.mk ("B") ("uB")]
        [("A", ["X"]), ("B", ["X"])]).lookups = ["X", "X"] ∧
    "X" ∉ (expandState ["A", "B"] [Item.mk ("A") ("uA"), Item.mk ("B") ("uB")]
        [("A", ["X"]), ("B", ["X"])]).processed := by
  have e1 : expandLoop [Item.mk ("A") ("uA"), Item.mk ("B") ("uB")] [("A", ["X"]), ("B", ["X"])]
      { queue := ["A", "B"], processed := ["A", "B"], extras := [], lookups := [] }
    = expandLoop [Item.mk ("A") ("uA"), Item.mk ("B") ("uB")] [("A", ["X"]), ("B", ["X"])]
      { queue := ["B"], processed := ["A", "B"], extras := [], lookups := ["X"] } := by
    rw [expandLoop_cons_some [Item.mk ("A") ("uA"), Item.mk ("B") ("uB")] [("A", ["X"]), ("B", ["X"])]
      { queue := ["A", "B"], processed := ["A", "B"], extras := [], lookups := [] }
      "A" ["B"] ["X"] rfl rfl]
    rfl
  have e2 : expandLoop [Item.mk ("A") ("uA"), Item.mk ("B") ("uB")] [("A", ["X"]), ("B", ["X"])]
      { queue := ["B"], processed := ["A", "B"], extras := [], lookups := ["X"] }
    = { queue := [], processed := ["A", "B"], extras := [], lookups := ["X", "X"] } := by
    rw [expandLoop_cons_some [Item.mk ("A") ("uA"), Item.mk ("B") ("uB")] [("A", ["X"]), ("B", ["X"])]
      { queue := ["B"], processed := ["A", "B"], extras := [], lookups := ["X"] }
      "B" [] ["X"] rfl rfl]
    exact expandLoop_nil _ _ _ rfl
  have e0 : expandState ["A", "B"] [Item.mk ("A") ("uA"), Item.mk ("B") ("uB")]
      [("A", ["X"]), ("B", ["X"])]
    = { queue := [], processed := ["A", "B"], extras := [], lookups := ["X", "X"] } := by
    unfold expandState
    show expandLoop [Item.mk ("A") ("uA"), Item.mk ("B") ("uB")] [("A", ["X"]), ("B", ["X"])]
      { queue := ["A", "B"], processed := ["A", "B"], extras := [], lookups := [] } = _
    rw [e1, e2]
  rw [e0]
  exact ⟨rfl, by decide⟩

/-- C4: the expansion result is exactly the confirmed items, in the order
supplied, followed by the discovered extras in breadth-first first-discovery
order — the source loop produces the same list as the algorithm transcribed
from the spec's own words (`specExpand`), for any starting item sequence
and in particular for the selection-filtered start the source uses. -/
theorem expansion_matches_spec_bfs :
    ∀ (initial : List Item) (catalog : Catalog) (depMap : DepMap),
      expandFrom initial catalog depMap = specExpand initial catalog depMap ∧
      ∀ requested, expand requested catalog depMap
        = specExpand (items_to_download requested catalog) catalog depMap := by
  have key : ∀ (initial : List Item) (catalog : Catalog) (depMap : DepMap),
      expandFrom initial catalog depMap = specExpand initial catalog depMap := by
    intro initial catalog depMap
    unfold expandFrom specExpand
    congr 1
    exact (expandLoop_specLoop_extras catalog depMap
      { queue := initial.map Item.name, processed := initial.map Item.name,
        extras := [], lookups := [] }
      { queue := initial.map Item.name, visited := initial.map Item.name, extras := [] }
      ⟨fun n h => h, fun n hv hnp => absurd hv hnp⟩ rfl rfl).symm
  intro initial catalog depMap
  exact ⟨key initial catalog depMap,
    fun requested => key (items_to_download requested catalog) catalog depMap⟩

/-- C5: on a two-cycle `A -> B, B -> A` with both items in a
duplicate-name-free catalog, expanding the singleton request `{A}`
terminates (the loop is a total function, defined by well-founded recursion
on queue length plus unseen catalog names) and returns exactly the two
items, each once. -/
theorem expansion_cycle_terminates (a b : Item) (catalog : Catalog)
    (hcat : (catalog.map Item.name).Nodup) (ha : a ∈ catalog) (hb : b ∈ catalog)
    (hab : a.name ≠ b.name) :
    expand [a.name] catalog [(a.name, [b.name]), (b.name, [a.name])] = [a, b] := by
  have hfilter := items_to_download_singleton catalog a hcat ha
  have hfind := find_item_name_unique catalog b hcat hb
  have hbeq : (b.name == a.name) = false := beq_eq_false_iff_ne.mpr (Ne.symm hab)
  have hlookA : List.lookup a.name [(a.name, [b.name]), (b.name, [a.name])]
      = some [b.name] := by
    simp [List.lookup]
  have hlookB : List.lookup b.name [(a.name, [b.name]), (b.name, [a.name])]
      = some [a.name] := by
    simp [List.lookup, hbeq]
  have hp1 : processDeps catalog [b.name]
      { queue := [], processed := [a.name], extras := [], lookups := [] }
    = { queue := [b.name], processed := [a.name, b.name], extras := [b],
        lookups := [b.name] } := by
    unfold processDeps
    rw [if_neg (by simp [Ne.symm hab])]
    rw [hfind]
    rfl
  have hp2 : processDeps catalog [a.name]
      { queue := [], processed := [a.name, b.name], extras := [b], lookups := [b.name] }
    = { queue := [], processed := [a.name, b.name], extras := [b], lookups := [b.name] } := by
    unfold processDeps
    rw [if_pos (by simp)]
    rfl
  have e1 : expandLoop catalog [(a.name, [b.name]), (b.name, [a.name])]
      { queue := [a.name], processed := [a.name], extras := [], lookups := [] }
    = expandLoop catalog [(a.name, [b.name]), (b.name, [a.name])]
      { queue := [b.name], processed := [a.name, b.name], extras := [b],
        lookups := [b.name] } := by
    rw [expandLoop_cons_some catalog [(a.name, [b.name]), (b.name, [a.name])]
      { queue := [a.name], processed := [a.name], extras := [], lookups := [] }
      a.name [] [b.name] rfl hlookA]
    exact congrArg (expandLoop catalog [(a.name, [b.name]), (b.name, [a.name])]) hp1
  have e2 : expandLoop catalog [(a.name, [b.name]), (b.name, [a.name])]
      { queue := [b.name], processed := [a.name, b.name], extras := [b],
        lookups := [b.name] }
    = { queue := [], processed := [a.name, b.name], extras := [b], lookups := [b.name] } := by
    rw [expandLoop_cons_some catalog [(a.name, [b.name]), (b.name, [a.name])]
      { queue := [b.name], processed := [a.name, b.name], extras := [b],
        lookups := [b.name] }
      b.name [] [a.name] rfl hlookB]
    have h2 := congrArg (expandLoop catalog [(a.name, [b.name]), (b.name, [a.name])]) hp2
    exact h2.trans (expandLoop_nil _ _ _ rfl)
  unfold expand expandState
  rw [hfilter]
  show [a] ++ (expandLoop catalog [(a.name, [b.name]), (b.name, [a.name])]
    { queue := [a.name], processed := [a.name], extras := [], lookups := [] }).extras = [a, b]
  rw [e1, e2]
  rfl

/-- C5 witness at a concrete input. -/
theorem expansion_cycle_terminates_witness :
    expand ["A"] [Item.mk ("A") ("u"), Item.mk ("B") ("v")] [("A", ["B"]), ("B", ["A"])]
      = [Item.mk ("A") ("u"), Item.mk ("B") ("v")] :=
  expansion_cycle_terminates (Item.mk ("A") ("u")) (Item.mk ("B") ("v"))
    [Item.mk ("A") ("u"), Item.mk ("B") ("v")] (by decide) (by decide) (by decide) (by decide)

/-- C6: in a batch where at least one item's transfer raises, the
orchestrator still attempts every item in order, the aggregate result is
failure, and the run log is persisted under the "logerror" base name;
a batch with no failing item persists under "successlog". -/
theorem batch_partial_failure_logerror (items : List Item) (ok : Item → Bool)
    (existing : List String) :
    ((runBatchLoop ok items true).1 = items) ∧
    ((∃ x ∈ items, ok x = false) →
      (runBatchLoop ok items true).2 = false ∧
      save_log existing (runBatchLoop ok items true).2
        = logFileName ("logerror") (save_log_index existing false)) ∧
    ((∀ x ∈ items, ok x = true) →
      (runBatchLoop ok items true).2 = true ∧
      save_log existing (runBatchLoop ok items true).2
        = logFileName ("successlog") (save_log_index existing true)) := by
  rw [runBatchLoop_eq]
  refine ⟨rfl, ?_, ?_⟩
  · rintro ⟨x, hx, hxf⟩
    have hall : items.all ok = false :=
      List.all_eq_false.mpr ⟨x, hx, by simp [hxf]⟩
    simp only [hall, Bool.and_false]
    exact ⟨trivial, rfl⟩
  · intro hall
    have h : items.all ok = true := List.all_eq_true.mpr hall
    simp only [h, Bool.and_true]
    exact ⟨trivial, rfl⟩

/-- C6 witness at a concrete input: a batch of three items whose middle
item fails. -/
theorem batch_partial_failure_logerror_witness :
    (runBatchLoop (fun i => i.name != "b")
      [Item.mk ("a") ("ua"), Item.mk ("b") ("ub"), Item.mk ("c") ("uc")] true).2 = false ∧
    save_log [] (runBatchLoop (fun i => i.name != "b")
      [Item.mk ("a") ("ua"), Item.mk ("b") ("ub"), Item.mk ("c") ("uc")] true).2
      = logFileName ("logerror") (save_log_index [] false) :=
  (batch_partial_failure_logerror
    [Item.mk ("a") ("ua"), Item.mk ("b") ("ub"), Item.mk ("c") ("uc")]
    (fun i => i.name != "b") []).2.1
    ⟨Item.mk ("b") ("ub"), by decide, by decide⟩

/-- C7: `save_log` chooses the file name `{base}{n}.txt` for the lowest
positive `n` whose file does not yet exist, hence never overwrites an
existing log file; in particular, when `logerror1.txt` exists and
`logerror2.txt` does not, an error-class persist writes `logerror2.txt`. -/
theorem save_log_lowest_free_never_overwrites (existing : List String) (success : Bool) :
    save_log existing success ∉ existing ∧
    1 ≤ save_log_index existing success ∧
    (∀ m, 1 ≤ m → m < save_log_index existing success →
      logFileName (logBase success) m ∈ existing) ∧
    save_log existing success
      = logFileName (logBase success) (save_log_index existing success) ∧
    ("logerror1.txt" ∈ existing → logFileName ("logerror") 2 ∉ existing →
      save_log existing false = logFileName ("logerror") 2) := by
  obtain ⟨h1, h2, h3⟩ := save_log_index_spec existing success
  refine ⟨h1, h2, h3, rfl, ?_⟩
  intro h1mem h2free
  obtain ⟨hfree, hge, hleast⟩ := save_log_index_spec existing false
  have hne1 : save_log_index existing false ≠ 1 := by
    intro h
    apply hfree
    rw [h]
    exact h1mem
  have hle : save_log_index existing false ≤ 2 := by
    by_contra hgt
    push_neg at hgt
    exact h2free (hleast 2 (by omega) (by omega))
  have hidx : save_log_index existing false = 2 := by omega
  unfold save_log
  rw [hidx]
  rfl

/-- C7 witness at a concrete input: with exactly `logerror1.txt` present,
the next error-class persist writes `logerror2.txt`. -/
theorem save_log_lowest_free_never_overwrites_witness :
    save_log ["logerror1.txt"] false = logFileName ("logerror") 2 :=
  (save_log_lowest_free_never_overwrites ["logerror1.txt"] false).2.2.2.2
    (by decide) (by decide)


/-! ## download_file case-analysis helpers -/

theorem download_file_exc_eq (dest : Destination) (r : HttpResponse) (e : String)
    (hok : r.ok = true) (hfs : r.chunks.findSome? chunkErr = some e) :
    download_file dest (Except.ok r)
      = failEvents
          (dlChunkLoop r.contentLength r.chunks 0 5
            ["Starting download: " ++ dest.fname, "Target path: " ++ dest.path,
             "Extension: " ++ (if dest.ext = "" then ("none") else dest.ext)]
            ["Retrieving: " ++ dest.fname] []).logs
          (dlChunkLoop r.contentLength r.chunks 0 5
            ["Starting download: " ++ dest.fname, "Target path: " ++ dest.path,
             "Extension: " ++ (if dest.ext = "" then ("none") else dest.ext)]
            ["Retrieving: " ++ dest.fname] []).statuses
          (dlChunkLoop r.contentLength r.chunks 0 5
            ["Starting download: " ++ dest.fname, "Target path: " ++ dest.path,
             "Extension: " ++ (if dest.ext = "" then ("none") else dest.ext)]
            ["Retrieving: " ++ dest.fname] []).thresholds e := by
  simp only [download_file, hok, Bool.true_eq_false, if_false]
  have hexc := (dlChunkLoop_exc r.contentLength r.chunks 0 5
    ["Starting download: " ++ dest.fname, "Target path: " ++ dest.path,
     "Extension: " ++ (if dest.ext = "" then ("none") else dest.ext)]
    ["Retrieving: " ++ dest.fname] []).trans hfs
  rw [hexc]

theorem download_file_thresholds (dest : Destination) (r : HttpResponse)
    (hok : r.ok = true) :
    (download_file dest (Except.ok r)).thresholds
      = (dlChunkLoop r.contentLength r.chunks 0 5
          ["Starting download: " ++ dest.fname, "Target path: " ++ dest.path,
           "Extension: " ++ (if dest.ext = "" then ("none") else dest.ext)]
          ["Retrieving: " ++ dest.fname] []).thresholds := by
  simp only [download_file, hok, Bool.true_eq_false, if_false]
  cases hexc : (dlChunkLoop r.contentLength r.chunks 0 5
      ["Starting download: " ++ dest.fname, "Target path: " ++ dest.path,
       "Extension: " ++ (if dest.ext = "" then ("none") else dest.ext)]
      ["Retrieving: " ++ dest.fname] []).exc with
  | none => rfl
  | some e => rfl

/-- C8: for every exception arising during a transfer (network error at
request time, non-2xx status, or a failure while reading/writing a chunk),
`download_file` emits the log line "Failed: {message}", sets the status
sink to "Error: {message}", signals readiness, and re-raises the same
exception to its caller. -/
theorem transfer_error_logged_and_reraised (dest : Destination)
    (resp : Except String HttpResponse) (e : String)
    (h : firstError resp = some e) :
    ("Failed: " ++ e) ∈ (download_file dest resp).logs ∧
    ("Error: " ++ e) ∈ (download_file dest resp).statuses ∧
    (download_file dest resp).readies = ["Ready"] ∧
    (download_file dest resp).result = Except.error e := by
  cases resp with
  | error e2 =>
    have he : e2 = e := by simpa [firstError] using h
    subst he
    refine ⟨?_, ?_, rfl, rfl⟩ <;> simp [download_file, failEvents]
  | ok r =>
    cases hok : r.ok with
    | false =>
      have he : r.errMsg = e := by simpa [firstError, hok] using h
      subst he
      simp only [download_file, hok, if_pos rfl]
      refine ⟨?_, ?_, rfl, rfl⟩ <;> simp [failEvents]
    | true =>
      have hfs : r.chunks.findSome? chunkErr = some e := by
        simpa [firstError, hok] using h
      rw [download_file_exc_eq dest r e hok hfs]
      refine ⟨?_, ?_, rfl, rfl⟩ <;> simp [failEvents]

/-- C8 witness at a concrete input: the second chunk fails. -/
theorem transfer_error_logged_and_reraised_witness :
    ("Failed: " ++ "disk full")
        ∈ (download_file (Destination.mk ("f.jar") ("/tmp/f.jar") (".jar"))
          (Except.ok (HttpResponse.mk true ("") 100
            [Except.ok 10, Except.error ("disk full")]))).logs ∧
    ("Error: " ++ "disk full")
        ∈ (download_file (Destination.mk ("f.jar") ("/tmp/f.jar") (".jar"))
          (Except.ok (HttpResponse.mk true ("") 100
            [Except.ok 10, Except.error ("disk full")]))).statuses ∧
    (download_file (Destination.mk ("f.jar") ("/tmp/f.jar") (".jar"))
      (Except.ok (HttpResponse.mk true ("") 100
        [Except.ok 10, Except.error ("disk full")]))).readies = ["Ready"] ∧
    (download_file (Destination.mk ("f.jar") ("/tmp/f.jar") (".jar"))
      (Except.ok (HttpResponse.mk true ("") 100
        [Except.ok 10, Except.error ("disk full")]))).result
      = Except.error ("disk full") :=
  transfer_error_logged_and_reraised (Destination.mk ("f.jar") ("/tmp/f.jar") (".jar"))
    (Except.ok (HttpResponse.mk true ("") 100 [Except.ok 10, Except.error ("disk full")]))
    "disk full" (by simp [firstError, chunkErr, List.findSome?])

/-- C9 (as amended): for a transfer whose response declares a total content
length and whose received bytes do not exceed that declared length, the
progress thresholds recorded are exactly the consecutive 5% boundaries
starting at 5%, strictly increasing, none repeated, and at most 20 progress
lines are emitted. -/
theorem progress_thresholds_bounded (dest : Destination) (r : HttpResponse)
    (hlen : r.contentLength ≠ 0) (hsum : chunkBytes r.chunks ≤ r.contentLength) :
    ∃ k, k ≤ 20 ∧
      (download_file dest (Except.ok r)).thresholds = fiveMultiples k ∧
      (download_file dest (Except.ok r)).thresholds.Pairwise (· < ·) ∧
      (download_file dest (Except.ok r)).thresholds.length ≤ 20 := by
  cases hok : r.ok with
  | false =>
    have hthr : (download_file dest (Except.ok r)).thresholds = [] := by
      simp [download_file, hok, failEvents]
    exact ⟨0, by omega, by rw [hthr]; rfl,
      by rw [hthr]; exact List.Pairwise.nil, by rw [hthr]; simp⟩
  | true =>
    rw [download_file_thresholds dest r hok]
    have h0 : (5 : ℚ) = ((5 * (0 + 1) : Nat) : ℚ) := by norm_num
    rw [h0, show ([] : List ℚ) = fiveMultiples 0 from rfl]
    obtain ⟨k, hk, hthr⟩ := dlChunkLoop_thr r.contentLength hlen r.chunks 0 0
      ["Starting download: " ++ dest.fname, "Target path: " ++ dest.path,
       "Extension: " ++ (if dest.ext = "" then ("none") else dest.ext)]
      ["Retrieving: " ++ dest.fname] (by simpa using hsum) (Or.inl rfl)
    have hk20 : k ≤ 20 := by omega
    exact ⟨k, hk20, hthr, hthr ▸ fiveMultiples_pairwise k,
      by rw [hthr, fiveMultiples_length]; exact hk20⟩

/-- C9 witness at a concrete input: 100 declared bytes delivered in two
50-byte chunks. -/
theorem progress_thresholds_bounded_witness :
    ∃ k, k ≤ 20 ∧
      (download_file (Destination.mk ("f") ("p") (""))
        (Except.ok (HttpResponse.mk true ("") 100
          [Except.ok 50, Except.ok 50]))).thresholds = fiveMultiples k ∧
      (download_file (Destination.mk ("f") ("p") (""))
        (Except.ok (HttpResponse.mk true ("") 100
          [Except.ok 50, Except.ok 50]))).thresholds.Pairwise (· < ·) ∧
      (download_file (Destination.mk ("f") ("p") (""))
        (Except.ok (HttpResponse.mk true ("") 100
          [Except.ok 50, Except.ok 50]))).thresholds.length ≤ 20 :=
  progress_thresholds_bounded (Destination.mk ("f") ("p") (""))
    (HttpResponse.mk true ("") 100 [Except.ok 50, Except.ok 50])
    (by decide) (by decide)

/-- When the server delivers more bytes than the declared total (here: total
1, one-byte chunks), every chunk crosses the current threshold, so every
chunk emits a progress line. -/
theorem dlChunkLoop_overrun (m : Nat) :
    ∀ (k d : Nat) (logs st : List String), k ≤ d →
      (dlChunkLoop 1 (List.replicate m (Except.ok 1)) d ((5 * (k + 1) : Nat) : ℚ)
        logs st (fiveMultiples k)).thresholds = fiveMultiples (k + m) := by
  induction m with
  | zero => intro k d logs st _; rfl
  | succ m ih =>
    intro k d logs st hkd
    show (dlChunkLoop 1 (Except.ok 1 :: List.replicate m (Except.ok 1)) d
      ((5 * (k + 1) : Nat) : ℚ) logs st (fiveMultiples k)).thresholds = _
    unfold dlChunkLoop
    rw [if_neg (by omega : ¬ (1 : Nat) = 0)]
    rw [if_pos (by omega : (1 : Nat) ≠ 0)]
    have hpc : ((d + 1 : Nat) : ℚ) / ((1 : Nat) : ℚ) * 100 ≥ ((5 * (k + 1) : Nat) : ℚ) := by
      push_cast
      rw [div_one]
      have hkd2 : (k : ℚ) ≤ (d : ℚ) := by exact_mod_cast hkd
      have hd0 : (0 : ℚ) ≤ (d : ℚ) := by positivity
      nlinarith [hkd2, hd0]
    rw [if_pos hpc]
    have hcast : ((5 * (k + 1) : Nat) : ℚ) + 5 = ((5 * (k + 1 + 1) : Nat) : ℚ) := by
      push_cast
      ring
    rw [hcast, ← fiveMultiples_succ k]
    rw [ih (k + 1) (d + 1) _ _ (by omega)]
    congr 1
    omega

/-- C9 counterexample: a response declaring Content-Length 1 whose stream
delivers 21 one-byte chunks makes `download_file` emit 21 progress lines
(one threshold per line), contradicting the claim's unconditional bound of
at most 20 progress lines per transfer. -/
theorem progress_more_than_twenty_cex :
    (download_file (Destination.mk ("f") ("p") (""))
      (Except.ok (HttpResponse.mk true ("") 1
        (List.replicate 21 (Except.ok 1))))).thresholds.length = 21 := by
  rw [download_file_thresholds (Destination.mk ("f") ("p") (""))
    (HttpResponse.mk true ("") 1 (List.replicate 21 (Except.ok 1))) rfl]
  have h0 : (5 : ℚ) = ((5 * (0 + 1) : Nat) : ℚ) := by norm_num
  rw [h0, show ([] : List ℚ) = fiveMultiples 0 from rfl]
  rw [dlChunkLoop_overrun 21 0 0 _ _ (le_refl 0)]
  rw [fiveMultiples_length]

/-- C10 (as amended): every public method of the Modrinth client is total
over network outcomes: on any failure (request exception, a 4xx/5xx status
that `raise_for_status` raises on, or body parse failure) `get_project`
returns `none` and the list-returning methods return `[]` instead of
raising; and whenever `get_versions` is non-empty,
`resolve_latest_valid_version` returns exactly its first element. -/
theorem modrinth_error_paths_total {α β γ δ : Type}
    (rp : NetOutcome α) (rv : NetOutcome (List β))
    (rd : NetOutcome (VersionObj γ)) (rpd : NetOutcome (ProjectsObj δ))
    (hp : netFailed rp) (hv : netFailed rv) (hd : netFailed rd)
    (hpd : netFailed rpd) :
    get_project rp = none ∧ get_versions rv = [] ∧
    get_version_dependencies rd = [] ∧ get_project_dependencies rpd = [] ∧
    resolve_latest_valid_version rv = none ∧
    ∀ (rv2 : NetOutcome (List β)) (v : β) (vs : List β),
      get_versions rv2 = v :: vs → resolve_latest_valid_version rv2 = some v := by
  have hgv : get_versions rv = [] := by
    cases rv with
    | error e => rfl
    | ok resp =>
      unfold netFailed at hv
      rcases hv with hs | ⟨e, he⟩
      · simp [get_versions, hs]
      · cases hs : status_ok resp.status <;> simp [get_versions, hs, he]
  refine ⟨?_, hgv, ?_, ?_, ?_, ?_⟩
  · cases rp with
    | error e => rfl
    | ok resp =>
      unfold netFailed at hp
      rcases hp with hs | ⟨e, he⟩
      · simp [get_project, hs]
      · cases hs : status_ok resp.status <;> simp [get_project, hs, he]
  · cases rd with
    | error e => rfl
    | ok resp =>
      unfold netFailed at hd
      rcases hd with hs | ⟨e, he⟩
      · simp [get_version_dependencies, hs]
      · cases hs : status_ok resp.status <;> simp [get_version_dependencies, hs, he]
  · cases rpd with
    | error e => rfl
    | ok resp =>
      unfold netFailed at hpd
      rcases hpd with hs | ⟨e, he⟩
      · simp [get_project_dependencies, hs]
      · cases hs : status_ok resp.status <;> simp [get_project_dependencies, hs, he]
  · unfold resolve_latest_valid_version
    rw [hgv]
  · intro rv2 v vs h
    unfold resolve_latest_valid_version
    rw [h]

/-- C10 witness at concrete inputs: a request exception, a 404 response on
the versions path, and a concrete head-selection clause. -/
theorem modrinth_error_paths_total_witness :
    get_project (Except.error ("down") : NetOutcome Nat) = none ∧
    get_versions (Except.ok (NetResponse.mk 404 (Except.ok ([] : List Nat)))) = [] ∧
    get_version_dependencies (Except.error ("down") : NetOutcome (VersionObj Nat)) = [] ∧
    get_project_dependencies (Except.error ("down") : NetOutcome (ProjectsObj Nat)) = [] ∧
    resolve_latest_valid_version
      (Except.ok (NetResponse.mk 404 (Except.ok ([] : List Nat)))) = none ∧
    ∀ (rv2 : NetOutcome (List Nat)) (v : Nat) (vs : List Nat),
      get_versions rv2 = v :: vs → resolve_latest_valid_version rv2 = some v :=
  modrinth_error_paths_total (Except.error ("down"))
    (Except.ok (NetResponse.mk 404 (Except.ok ([] : List Nat))))
    (Except.error ("down")) (Except.error ("down"))
    trivial (Or.inl (by decide)) trivial trivial

/-- C10 counterexample: a final non-2xx response outside the raising range
(status 300, which `requests` does not follow and `raise_for_status` does
not raise on) with a parseable body makes `get_project` return the parsed
body rather than `None`, contradicting the claim that every non-2xx
response yields `None`. -/
theorem modrinth_non2xx_not_none_cex :
    get_project (Except.ok (NetResponse.mk 300 (Except.ok (42 : Nat)))) = some 42 := by
  decide
